import Mathlib

/-
Verification of the go-hw mapreduce workers (HW-4) against their design
specification.  The mapper worker (HW-4/mapreduce/mapper/main.go) and the
reducer worker are shallowly embedded below: strings are lists of unicode
scalars, the Go map[string]int is an association list updated exactly as the
Go code updates the map (Go map iteration order is unspecified; the embedding
fixes first-insertion order, and every property proved here is invariant
under reordering of entries), and the S3 object store is an association list
from keys to stored objects.
-/

set_option autoImplicit false

namespace GoHW

/-- A Go string, as its list of runes. -/
abbrev Word := List Char

/-- unicode.IsSpace as used by strings.Fields and strings.TrimSpace,
modelled on the Latin-1 range: tab, newline, vertical tab, form feed,
carriage return, space, next line, no-break space. -/
def isSpace (c : Char) : Bool :=
  c.toNat = 9 || c.toNat = 10 || c.toNat = 11 || c.toNat = 12 ||
  c.toNat = 13 || c.toNat = 32 || c.toNat = 133 || c.toNat = 160

/-- Accumulator pass of strings.Fields: cur holds the current in-progress
field reversed. -/
def fieldsAux : Word → List Char → List Word
  | cur, [] => if cur = [] then [] else [cur.reverse]
  | cur, c :: cs =>
    if isSpace c then
      if cur = [] then fieldsAux [] cs else cur.reverse :: fieldsAux [] cs
    else fieldsAux (c :: cur) cs

/-- strings.Fields: split around runs of whitespace. -/
def fields (s : List Char) : List Word :=
  fieldsAux [] s

/-- The cutset of strings.Trim in the mapper: period, comma, bang, question
mark, semicolon, colon, double quote, single quote, parentheses, square
brackets, curly braces. -/
def cutset : Word :=
  ['.', ',', '!', '?', ';', ':', Char.ofNat 34, Char.ofNat 39, '(', ')',
   Char.ofNat 91, Char.ofNat 93, Char.ofNat 123, Char.ofNat 125]

/-- strings.Trim: remove leading and trailing runes that belong to the
cutset. -/
def trimGo (cut : Word) (w : Word) : Word :=
  ((w.dropWhile (fun c => cut.contains c)).reverse.dropWhile
    (fun c => cut.contains c)).reverse

/-- The cleaning step of the mapper: strings.ToLower(strings.Trim(word, cutset)).
strings.ToLower lowers each rune; the embedding covers the ASCII range via
Char.toLower. -/
def clean (w : Word) : Word :=
  (trimGo cutset w).map Char.toLower

/-- A Go map[string]int, as an association list in first-insertion order. -/
abbrev WordMap := List (Word × Nat)

/-- The Go statement m[w] += k on the association-list map: increment the
entry if present, append a fresh entry otherwise. -/
def bump (m : WordMap) (w : Word) (k : Nat) : WordMap :=
  match m with
  | [] => [(w, k)]
  | (a, c) :: rest => if a = w then (a, c + k) :: rest else (a, c) :: bump rest w k

/-- Reading m[x] from the association-list map (0 when absent, as the Go
zero value). -/
def lookupW (m : WordMap) (x : Word) : Nat :=
  match m with
  | [] => 0
  | (a, c) :: rest => if a = x then c else lookupW rest x

/-- One iteration of the counting loop of the mapper over strings.Fields output:
clean the word and, when the cleaned form is nonempty, increment its count. -/
def countStep (m : WordMap) (word : Word) : WordMap :=
  if clean word = [] then m else bump m (clean word) 1

/-- The word-count loop of the mapper (mapHandler step 2). -/
def wordCounts (ws : List Word) : WordMap :=
  ws.foldl countStep []

/-- The cleaned nonempty tokens of a word list, in order: the multiset of
words the mapper actually counts. -/
def cleanedWords : List Word → List Word
  | [] => []
  | w :: ws => if clean w = [] then cleanedWords ws else clean w :: cleanedWords ws

/-- The reducer aggregation of one mapper output into the accumulator:
for each entry, finalCounts[word] += count. -/
def mergeInto (f : WordMap) (m : WordMap) : WordMap :=
  m.foldl (fun acc p => bump acc p.1 p.2) f

/-- The reducer key-wise summation over a list of mapper outputs
(reduceHandler step 1). -/
def reduceCounts (ms : List WordMap) : WordMap :=
  ms.foldl mergeInto []

/-- Total count a map attributes to key x, over all entries (used to reason
about maps whose key lists may repeat). -/
def entryCount (m : WordMap) (x : Word) : Nat :=
  (m.map (fun p => if p.1 = x then p.2 else 0)).sum

/-- JSON values occurring in the worker gin response bodies. -/
inductive JVal
  | str (s : Word)
  | num (n : Nat)
deriving DecidableEq

/-- Nibble to lowercase hex, as encoding/json renders escape sequences. -/
def hexDigit (n : Nat) : Char :=
  if n < 10 then Char.ofNat (48 + n) else Char.ofNat (87 + n)

/-- encoding/json string escaping with the default HTML escaping of
json.Marshal: quote, backslash, newline, carriage return, tab, other
control runes, angle brackets, ampersand, and the line and paragraph
separators are escaped; every other rune passes through. -/
def escapeChar (c : Char) : List Char :=
  if c.toNat = 34 then [Char.ofNat 92, Char.ofNat 34]
  else if c.toNat = 92 then [Char.ofNat 92, Char.ofNat 92]
  else if c.toNat = 10 then [Char.ofNat 92, 'n']
  else if c.toNat = 13 then [Char.ofNat 92, 'r']
  else if c.toNat = 9 then [Char.ofNat 92, 't']
  else if c.toNat < 32 then
    [Char.ofNat 92, 'u', '0', '0', hexDigit (c.toNat / 16), hexDigit (c.toNat % 16)]
  else if c = '<' then [Char.ofNat 92, 'u', '0', '0', '3', 'c']
  else if c = '>' then [Char.ofNat 92, 'u', '0', '0', '3', 'e']
  else if c = '&' then [Char.ofNat 92, 'u', '0', '0', '2', '6']
  else if c.toNat = 8232 then [Char.ofNat 92, 'u', '2', '0', '2', '8']
  else if c.toNat = 8233 then [Char.ofNat 92, 'u', '2', '0', '2', '9']
  else [c]

/-- Rune-wise (equivalently byte-wise, as UTF-8 preserves scalar order)
lexicographic order on Go strings, the order in which json.Marshal emits
map keys. -/
def wordLt : Word → Word → Bool
  | [], [] => false
  | [], _ :: _ => true
  | _ :: _, [] => false
  | a :: as, b :: bs =>
    if a.toNat < b.toNat then true
    else if b.toNat < a.toNat then false
    else wordLt as bs

/-- Insertion step of the key sort used by json.Marshal on maps. -/
def insertEntry (p : Word × Nat) : WordMap → WordMap
  | [] => [p]
  | q :: qs => if wordLt p.1 q.1 then p :: q :: qs else q :: insertEntry p qs

/-- Sort the entries of a map by key, as json.Marshal does before encoding. -/
def sortByKey (m : WordMap) : WordMap :=
  m.foldr insertEntry []

/-- One key:value pair of the JSON object text. -/
def renderEntry (p : Word × Nat) : List Char :=
  [Char.ofNat 34] ++ (p.1.map escapeChar).flatten ++ [Char.ofNat 34, ':'] ++
    Nat.toDigits 10 p.2

/-- json.Marshal of a map[string]int: an object literal with the entries in
sorted key order, comma-separated. -/
def marshalWordMap (m : WordMap) : List Char :=
  [Char.ofNat 123] ++ List.intercalate [','] ((sortByKey m).map renderEntry) ++
    [Char.ofNat 125]

/-- A stored S3 object body: either a raw text chunk or the marshalled JSON
of a word-count map, the only two shapes this system writes. -/
inductive Blob
  | text (s : List Char)
  | jsonMap (m : WordMap)
deriving DecidableEq

/-- The bytes of a stored object as io.ReadAll in the mapper sees them. -/
def blobBytes : Blob → List Char
  | Blob.text s => s
  | Blob.jsonMap m => marshalWordMap m

/-- json.Unmarshal of a stored body into map[string]int. A jsonMap blob
round-trips to its map; a text blob stands for chunk bytes that are not a
JSON object of integer counts, so unmarshalling it fails. -/
def unmarshalWordMap : Blob → Option WordMap
  | Blob.text _ => none
  | Blob.jsonMap m => some m

/-- An object at rest in the store: body plus the content type supplied by
the PutObject call of the writer. -/
structure StoredObj where
  blob : Blob
  contentType : Word
deriving DecidableEq

/-- The S3 bucket contents, keyed by object key. -/
abbrev Store := List (Word × StoredObj)

/-- S3 GetObject: the object at the key, if present. -/
def lookupStore : Store → Word → Option StoredObj
  | [], _ => none
  | (k, o) :: rest, x => if k = x then some o else lookupStore rest x

/-- S3 PutObject: replace the object at the key, or create it. -/
def putStore : Store → Word → StoredObj → Store
  | [], k, o => [(k, o)]
  | (a, b) :: rest, k, o =>
    if a = k then (a, o) :: rest else (a, b) :: putStore rest k o

def contentTypeJson : Word := "application/json".toList

def errorField : Word := "error".toList

def messageField : Word := "message".toList

def outputField : Word := "output".toList

def uniqueWordsField : Word := "unique_words".toList

def totalWordsField : Word := "total_words".toList

def mappersProcessedField : Word := "mappers_processed".toList

def mapCompleteMsg : Word := "map complete".toList

def reduceCompleteMsg : Word := "reduce complete".toList

def paramsRequiredMsg : Word := "bucket, key, and output_key query params required".toList

def keysRequiredMsg : Word := "bucket and keys query params required".toList

def failedGetObjectMsg : Word := "failed to get S3 object".toList

def failedUploadMsg : Word := "failed to upload results".toList

def failedUploadFinalMsg : Word := "failed to upload final results".toList

def failedGetMsg : Word := "failed to get ".toList

def failedParseMsg : Word := "failed to parse ".toList

/-- The %v-rendered cause appended to the per-key reducer error messages;
the concrete cause text is abstracted, only the separator is kept. -/
def errCauseMsg : Word := ": ".toList

def s3Scheme : Word := "s3://".toList

def finalResultsKey : Word := "results/final_counts.json".toList

/-- fmt.Sprintf s3 url of a written object. -/
def s3Url (bucket key : Word) : Word :=
  s3Scheme ++ bucket ++ ['/'] ++ key

/-- A worker HTTP response: status code and JSON body fields in source
order (gin.H serialization order is immaterial to every property proved). -/
structure Response where
  status : Nat
  body : List (Word × JVal)
deriving DecidableEq

/-- Outcome of one handler invocation: the response, the store afterwards,
and the list of successful PutObject writes the invocation performed. -/
structure HResult where
  resp : Response
  store : Store
  puts : List (Word × StoredObj)
deriving DecidableEq

/-- mapHandler of HW-4/mapreduce/mapper/main.go. GetObject of a present key
succeeds with the stored object and fails on an absent key; putFail injects
a PutObject failure; the body read of a fetched object is modelled as
succeeding, and json.Marshal of a map[string]int never fails. -/
def mapHandler (bucket key outputKey : Word) (putFail : Bool) (store : Store) : HResult :=
  if bucket = [] ∨ key = [] ∨ outputKey = [] then
    ⟨⟨400, [(errorField, JVal.str paramsRequiredMsg)]⟩, store, []⟩
  else
    match lookupStore store key with
    | none => ⟨⟨500, [(errorField, JVal.str failedGetObjectMsg)]⟩, store, []⟩
    | some obj =>
      let words := fields (blobBytes obj.blob)
      let wc := wordCounts words
      if putFail then
        ⟨⟨500, [(errorField, JVal.str failedUploadMsg)]⟩, store, []⟩
      else
        ⟨⟨200, [(messageField, JVal.str mapCompleteMsg),
                (outputField, JVal.str (s3Url bucket outputKey)),
                (uniqueWordsField, JVal.num wc.length),
                (totalWordsField, JVal.num words.length)]⟩,
         putStore store outputKey ⟨Blob.jsonMap wc, contentTypeJson⟩,
         [(outputKey, ⟨Blob.jsonMap wc, contentTypeJson⟩)]⟩

/-- strings.Split on the one-rune separator comma: never empty, keeps empty
segments. -/
def splitComma : List Char → List Word
  | [] => [[]]
  | c :: cs =>
    if c = ',' then [] :: splitComma cs
    else
      match splitComma cs with
      | [] => [[c]]
      | w :: rest => (c :: w) :: rest

/-- strings.TrimSpace. -/
def trimSpace (s : Word) : Word :=
  ((s.dropWhile isSpace).reverse.dropWhile isSpace).reverse

/-- The two per-key failure modes of the reducer loop. -/
inductive ReduceErr
  | getFailed (k : Word)
  | parseFailed (k : Word)
deriving DecidableEq

/-- The reducer per-key loop (reduceHandler step 1): trim the key, fetch
the object, unmarshal it, and fold its counts into the accumulator; the
first failure aborts the loop with the trimmed key that failed. -/
def aggregate (store : Store) : List Word → WordMap → Except ReduceErr WordMap
  | [], final => Except.ok final
  | k :: ks, final =>
    match lookupStore store (trimSpace k) with
    | none => Except.error (ReduceErr.getFailed (trimSpace k))
    | some obj =>
      match unmarshalWordMap obj.blob with
      | none => Except.error (ReduceErr.parseFailed (trimSpace k))
      | some m => aggregate store ks (mergeInto final m)

/-- reduceHandler of the reducer worker: aggregate every supplied key, then
write the final counts to the fixed results key. -/
def reduceHandler (bucket keysParam : Word) (putFail : Bool) (store : Store) : HResult :=
  if bucket = [] ∨ keysParam = [] then
    ⟨⟨400, [(errorField, JVal.str keysRequiredMsg)]⟩, store, []⟩
  else
    match aggregate store (splitComma keysParam) [] with
    | Except.error (ReduceErr.getFailed k) =>
      ⟨⟨500, [(errorField, JVal.str (failedGetMsg ++ k ++ errCauseMsg))]⟩, store, []⟩
    | Except.error (ReduceErr.parseFailed k) =>
      ⟨⟨500, [(errorField, JVal.str (failedParseMsg ++ k ++ errCauseMsg))]⟩, store, []⟩
    | Except.ok finalCounts =>
      if putFail then
        ⟨⟨500, [(errorField, JVal.str failedUploadFinalMsg)]⟩, store, []⟩
      else
        ⟨⟨200, [(messageField, JVal.str reduceCompleteMsg),
                (outputField, JVal.str (s3Url bucket finalResultsKey)),
                (uniqueWordsField, JVal.num finalCounts.length),
                (mappersProcessedField, JVal.num (splitComma keysParam).length)]⟩,
         putStore store finalResultsKey ⟨Blob.jsonMap finalCounts, contentTypeJson⟩,
         [(finalResultsKey, ⟨Blob.jsonMap finalCounts, contentTypeJson⟩)]⟩

theorem lookupW_nil (x : Word) : lookupW [] x = 0 := rfl

theorem lookupW_bump (m : WordMap) (w x : Word) (k : Nat) :
    lookupW (bump m w k) x = lookupW m x + (if w = x then k else 0) := by
  induction m with
  | nil => simp [bump, lookupW]
  | cons p rest ih =>
    obtain ⟨a, c⟩ := p
    by_cases haw : a = w
    · subst haw
      by_cases hax : a = x
      · subst hax; simp [bump, lookupW]
      · simp [bump, lookupW, hax]
    · by_cases hax : a = x
      · have hwx : ¬ w = x := fun h => haw (hax.trans h.symm)
        subst hax
        simp [bump, lookupW, haw, hwx]
      · simp [bump, lookupW, haw, hax, ih]

theorem mem_keys_bump (m : WordMap) (w x : Word) (k : Nat) :
    x ∈ (bump m w k).map Prod.fst ↔ x ∈ m.map Prod.fst ∨ x = w := by
  induction m with
  | nil => simp [bump]
  | cons p rest ih =>
    obtain ⟨a, c⟩ := p
    by_cases haw : a = w
    · subst haw
      simp [bump, List.mem_cons]
      try tauto
    · simp [bump, haw, List.mem_cons, ih]
      try tauto

theorem nodup_keys_bump (m : WordMap) (w : Word) (k : Nat)
    (h : (m.map Prod.fst).Nodup) : ((bump m w k).map Prod.fst).Nodup := by
  induction m with
  | nil => simp [bump]
  | cons p rest ih =>
    obtain ⟨a, c⟩ := p
    simp only [List.map_cons, List.nodup_cons] at h
    by_cases haw : a = w
    · subst haw
      simp [bump, List.nodup_cons, h.1, h.2]
    · simp only [bump, haw, if_false, List.map_cons, List.nodup_cons]
      refine ⟨?_, ih h.2⟩
      intro hmem
      rcases (mem_keys_bump rest w a k).1 hmem with h1 | h1
      · exact h.1 h1
      · exact haw h1

theorem pos_bump (m : WordMap) (w : Word) (k : Nat)
    (hm : ∀ p ∈ m, 1 ≤ p.2) (hk : 1 ≤ k) : ∀ p ∈ bump m w k, 1 ≤ p.2 := by
  induction m with
  | nil =>
    intro p hp
    simp only [bump, List.mem_singleton] at hp
    subst hp
    exact hk
  | cons q rest ih =>
    obtain ⟨a, c⟩ := q
    intro p hp
    by_cases haw : a = w
    · subst haw
      simp [bump] at hp
      rcases hp with hp | hp
      · subst hp
        have := hm (a, c) (by simp)
        simp at this
        omega
      · exact hm p (List.mem_cons_of_mem _ hp)
    · simp [bump, haw] at hp
      rcases hp with hp | hp
      · subst hp
        exact hm (a, c) (by simp)
      · exact ih (fun q hq => hm q (List.mem_cons_of_mem _ hq)) p hp

theorem lookupW_foldl_countStep (ws : List Word) :
    ∀ (acc : WordMap) (x : Word),
      lookupW (ws.foldl countStep acc) x = lookupW acc x + (cleanedWords ws).count x := by
  induction ws with
  | nil => intro acc x; simp [cleanedWords]
  | cons w ws ih =>
    intro acc x
    by_cases hc : clean w = []
    · simp only [List.foldl_cons, countStep, hc, if_true, cleanedWords]
      exact ih acc x
    · simp only [List.foldl_cons, countStep, hc, if_false, cleanedWords]
      rw [ih, lookupW_bump]
      by_cases hcx : clean w = x
      · simp [hcx, List.count_cons]
        omega
      · have : ¬ x = clean w := fun h => hcx h.symm
        simp [hcx, List.count_cons, this]

theorem lookupW_wordCounts (ws : List Word) (x : Word) :
    lookupW (wordCounts ws) x = (cleanedWords ws).count x := by
  have h := lookupW_foldl_countStep ws [] x
  rw [lookupW_nil] at h
  simpa [wordCounts] using h

theorem mem_keys_foldl_countStep (ws : List Word) :
    ∀ (acc : WordMap) (x : Word),
      x ∈ (ws.foldl countStep acc).map Prod.fst ↔
        x ∈ acc.map Prod.fst ∨ x ∈ cleanedWords ws := by
  induction ws with
  | nil => intro acc x; simp [cleanedWords]
  | cons w ws ih =>
    intro acc x
    by_cases hc : clean w = []
    · simp only [List.foldl_cons, countStep, hc, if_true, cleanedWords]
      exact (ih acc x).trans (by tauto)
    · simp only [List.foldl_cons, countStep, hc, if_false, cleanedWords]
      rw [ih]
      rw [mem_keys_bump]
      constructor
      · rintro (h | h)
        · rcases h with h | h
          · exact Or.inl h
          · exact Or.inr (by simp [h])
        · exact Or.inr (List.mem_cons_of_mem _ h)
      · rintro (h | h)
        · exact Or.inl (Or.inl h)
        · rcases List.mem_cons.1 h with h | h
          · exact Or.inl (Or.inr h)
          · exact Or.inr h

theorem nodup_keys_foldl_countStep (ws : List Word) :
    ∀ (acc : WordMap), (acc.map Prod.fst).Nodup →
      ((ws.foldl countStep acc).map Prod.fst).Nodup := by
  induction ws with
  | nil => intro acc h; simpa using h
  | cons w ws ih =>
    intro acc h
    by_cases hc : clean w = []
    · simp only [List.foldl_cons, countStep, hc, if_true]
      exact ih acc h
    · simp only [List.foldl_cons, countStep, hc, if_false]
      exact ih _ (nodup_keys_bump acc (clean w) 1 h)

theorem nodup_keys_wordCounts (ws : List Word) :
    ((wordCounts ws).map Prod.fst).Nodup :=
  nodup_keys_foldl_countStep ws [] (by simp)

theorem mem_keys_wordCounts (ws : List Word) (x : Word) :
    x ∈ (wordCounts ws).map Prod.fst ↔ x ∈ cleanedWords ws := by
  have := mem_keys_foldl_countStep ws [] x
  simpa [wordCounts] using this

theorem lookupW_mergeInto (m : WordMap) :
    ∀ (f : WordMap) (x : Word),
      lookupW (mergeInto f m) x = lookupW f x + entryCount m x := by
  induction m with
  | nil => intro f x; simp [mergeInto, entryCount]
  | cons p m ih =>
    intro f x
    obtain ⟨w, k⟩ := p
    simp only [mergeInto, List.foldl_cons] at *
    rw [ih, lookupW_bump]
    simp only [entryCount, List.map_cons, List.sum_cons]
    omega

theorem entryCount_eq_zero_of_not_mem (m : WordMap) (x : Word)
    (h : x ∉ m.map Prod.fst) : entryCount m x = 0 := by
  induction m with
  | nil => simp [entryCount]
  | cons p m ih =>
    simp only [List.map_cons, List.mem_cons] at h
    push_neg at h
    have h1 : ¬ p.1 = x := fun hx => h.1 hx.symm
    simp only [entryCount, List.map_cons, List.sum_cons, h1, if_false]
    simpa [entryCount] using ih h.2

theorem lookupW_eq_zero_of_not_mem (m : WordMap) (x : Word)
    (h : x ∉ m.map Prod.fst) : lookupW m x = 0 := by
  induction m with
  | nil => rfl
  | cons p m ih =>
    obtain ⟨a, c⟩ := p
    simp only [List.map_cons, List.mem_cons] at h
    push_neg at h
    have h1 : ¬ a = x := fun hx => h.1 hx.symm
    simp only [lookupW, h1, if_false]
    exact ih h.2

theorem entryCount_of_nodup (m : WordMap) (x : Word)
    (h : (m.map Prod.fst).Nodup) : entryCount m x = lookupW m x := by
  induction m with
  | nil => simp [entryCount, lookupW_nil]
  | cons p m ih =>
    obtain ⟨a, c⟩ := p
    simp only [List.map_cons, List.nodup_cons] at h
    by_cases hax : a = x
    · subst hax
      simp only [entryCount, List.map_cons, List.sum_cons, if_pos rfl, lookupW]
      have : entryCount m a = 0 := entryCount_eq_zero_of_not_mem m a h.1
      simpa [entryCount] using this
    · simp only [entryCount, List.map_cons, List.sum_cons, hax, if_false, lookupW]
      simpa [entryCount] using ih h.2

theorem mem_keys_mergeInto (m : WordMap) :
    ∀ (f : WordMap) (x : Word),
      x ∈ (mergeInto f m).map Prod.fst ↔
        x ∈ f.map Prod.fst ∨ x ∈ m.map Prod.fst := by
  induction m with
  | nil => intro f x; simp [mergeInto]
  | cons p m ih =>
    intro f x
    simp only [mergeInto, List.foldl_cons] at *
    rw [ih]
    rw [mem_keys_bump]
    simp only [List.map_cons, List.mem_cons]
    tauto

theorem nodup_keys_mergeInto (m : WordMap) :
    ∀ (f : WordMap), (f.map Prod.fst).Nodup → ((mergeInto f m).map Prod.fst).Nodup := by
  induction m with
  | nil => intro f h; simpa [mergeInto] using h
  | cons p m ih =>
    intro f h
    simp only [mergeInto, List.foldl_cons] at *
    exact ih _ (nodup_keys_bump f p.1 p.2 h)

theorem lookupW_foldl_mergeInto (ms : List WordMap) :
    ∀ (f : WordMap) (x : Word),
      lookupW (ms.foldl mergeInto f) x =
        lookupW f x + (ms.map (fun m => entryCount m x)).sum := by
  induction ms with
  | nil => intro f x; simp
  | cons m ms ih =>
    intro f x
    simp only [List.foldl_cons, List.map_cons, List.sum_cons]
    rw [ih, lookupW_mergeInto]
    omega

theorem mem_keys_foldl_mergeInto (ms : List WordMap) :
    ∀ (f : WordMap) (x : Word),
      x ∈ ((ms.foldl mergeInto f).map Prod.fst) ↔
        x ∈ f.map Prod.fst ∨ ∃ m ∈ ms, x ∈ m.map Prod.fst := by
  induction ms with
  | nil => intro f x; simp
  | cons m ms ih =>
    intro f x
    simp only [List.foldl_cons]
    rw [ih, mem_keys_mergeInto]
    constructor
    · rintro ((h | h) | ⟨m', hm', h⟩)
      · exact Or.inl h
      · exact Or.inr ⟨m, by simp, h⟩
      · exact Or.inr ⟨m', by simp [hm'], h⟩
    · rintro (h | ⟨m', hm', h⟩)
      · exact Or.inl (Or.inl h)
      · rcases List.mem_cons.1 hm' with h1 | h1
        · subst h1; exact Or.inl (Or.inr h)
        · exact Or.inr ⟨m', h1, h⟩

theorem nodup_keys_foldl_mergeInto (ms : List WordMap) :
    ∀ (f : WordMap), (f.map Prod.fst).Nodup →
      ((ms.foldl mergeInto f).map Prod.fst).Nodup := by
  induction ms with
  | nil => intro f h; simpa using h
  | cons m ms ih =>
    intro f h
    simp only [List.foldl_cons]
    exact ih _ (nodup_keys_mergeInto m f h)

theorem nodup_keys_reduceCounts (ms : List WordMap) :
    ((reduceCounts ms).map Prod.fst).Nodup :=
  nodup_keys_foldl_mergeInto ms [] (by simp)

theorem mem_keys_reduceCounts (ms : List WordMap) (x : Word) :
    x ∈ (reduceCounts ms).map Prod.fst ↔ ∃ m ∈ ms, x ∈ m.map Prod.fst := by
  have := mem_keys_foldl_mergeInto ms [] x
  simpa [reduceCounts] using this

theorem lookupW_reduceCounts (ms : List WordMap) (x : Word) :
    lookupW (reduceCounts ms) x = (ms.map (fun m => entryCount m x)).sum := by
  have h := lookupW_foldl_mergeInto ms [] x
  rw [lookupW_nil] at h
  simpa [reduceCounts] using h

theorem cleanedWords_append (xs ys : List Word) :
    cleanedWords (xs ++ ys) = cleanedWords xs ++ cleanedWords ys := by
  induction xs with
  | nil => simp [cleanedWords]
  | cons w xs ih =>
    by_cases hc : clean w = []
    · simp [cleanedWords, hc, ih]
    · simp [cleanedWords, hc, ih]

theorem count_cleanedWords_join (chunks : List (List Word)) (x : Word) :
    (cleanedWords chunks.join).count x =
      (chunks.map (fun c => (cleanedWords c).count x)).sum := by
  induction chunks with
  | nil => simp [cleanedWords]
  | cons c cs ih =>
    simp only [List.join_cons, List.map_cons, List.sum_cons]
    rw [cleanedWords_append, List.count_append, ih]

theorem mem_cleanedWords_join (chunks : List (List Word)) (x : Word) :
    x ∈ cleanedWords chunks.join ↔ ∃ c ∈ chunks, x ∈ cleanedWords c := by
  induction chunks with
  | nil => simp [cleanedWords]
  | cons c cs ih =>
    simp only [List.join_cons]
    rw [cleanedWords_append]
    simp only [List.mem_append, ih]
    constructor
    · rintro (h | ⟨c', hc', h⟩)
      · exact ⟨c, by simp, h⟩
      · exact ⟨c', by simp [hc'], h⟩
    · rintro ⟨c', hc', h⟩
      rcases List.mem_cons.1 hc' with h1 | h1
      · subst h1; exact Or.inl h
      · exact Or.inr ⟨c', h1, h⟩

theorem reduce_lookup_eq (chunks : List (List Word)) (x : Word) :
    lookupW (reduceCounts (chunks.map wordCounts)) x =
      lookupW (wordCounts chunks.join) x := by
  rw [lookupW_reduceCounts, lookupW_wordCounts, count_cleanedWords_join,
    List.map_map]
  congr 1
  apply List.map_congr_left
  intro c _
  simp only [Function.comp]
  rw [entryCount_of_nodup _ _ (nodup_keys_wordCounts c), lookupW_wordCounts]

theorem reduce_length_eq (chunks : List (List Word)) :
    (reduceCounts (chunks.map wordCounts)).length =
      (wordCounts chunks.join).length := by
  have h1 : ((reduceCounts (chunks.map wordCounts)).map Prod.fst).Perm
      ((wordCounts chunks.join).map Prod.fst) := by
    rw [List.perm_ext_iff_of_nodup (nodup_keys_reduceCounts _) (nodup_keys_wordCounts _)]
    intro x
    rw [mem_keys_reduceCounts, mem_keys_wordCounts, mem_cleanedWords_join]
    constructor
    · rintro ⟨m, hm, hx⟩
      rcases List.mem_map.1 hm with ⟨c, hc, rfl⟩
      exact ⟨c, hc, (mem_keys_wordCounts c x).1 hx⟩
    · rintro ⟨c, hc, hx⟩
      exact ⟨wordCounts c, List.mem_map.2 ⟨c, hc, rfl⟩, (mem_keys_wordCounts c x).2 hx⟩
  have := h1.length_eq
  simpa using this

/-- C1: for every input text and every partition of its whitespace-separated
words into n ≥ 1 chunks at word boundaries, running the mapper word-count
on each chunk and then the reducer key-wise summation over the n mapper
outputs yields exactly the same word-to-count mapping, and the same
unique-word count, as processing the whole input as a single chunk. -/
theorem chunk_count_never_affects_final_counts
    (texts : List (List Char)) (whole : List Char)
    (hn : 1 ≤ texts.length)
    (hsplit : (texts.map fields).join = fields whole) :
    (∀ x : Word,
      lookupW (reduceCounts (texts.map (fun t => wordCounts (fields t)))) x
        = lookupW (wordCounts (fields whole)) x)
    ∧ (reduceCounts (texts.map (fun t => wordCounts (fields t)))).length
        = (wordCounts (fields whole)).length := by
  have hmap : texts.map (fun t => wordCounts (fields t)) =
      (texts.map fields).map wordCounts := by
    rw [List.map_map]
    rfl
  constructor
  · intro x
    rw [hmap, reduce_lookup_eq, hsplit]
  · rw [hmap, reduce_length_eq, hsplit]

theorem append_ne_nil_left {α : Type} (l t : List α) (h : l ≠ []) : l ++ t ≠ [] := by
  cases l with
  | nil => exact absurd rfl h
  | cons a as => simp

theorem lookupStore_putStore_self (s : Store) (k : Word) (o : StoredObj) :
    lookupStore (putStore s k o) k = some o := by
  induction s with
  | nil => simp [putStore, lookupStore]
  | cons p rest ih =>
    obtain ⟨a, b⟩ := p
    by_cases hak : a = k
    · simp [putStore, hak, lookupStore]
    · simp [putStore, hak, lookupStore, ih]

theorem lookupStore_putStore_ne (s : Store) (k x : Word) (o : StoredObj)
    (h : x ≠ k) : lookupStore (putStore s k o) x = lookupStore s x := by
  induction s with
  | nil =>
    have h2 : ¬ k = x := fun hh => h hh.symm
    simp [putStore, lookupStore, h2]
  | cons p rest ih =>
    obtain ⟨a, b⟩ := p
    by_cases hak : a = k
    · subst hak
      have h2 : ¬ a = x := fun hh => h hh.symm
      simp [putStore, lookupStore, h2]
    · by_cases hax : a = x
      · simp [putStore, hak, lookupStore, hax, h]
      · simp [putStore, hak, lookupStore, hax, ih]

theorem putStore_putStore_self (s : Store) (k : Word) (o : StoredObj) :
    putStore (putStore s k o) k o = putStore s k o := by
  induction s with
  | nil => simp [putStore]
  | cons p rest ih =>
    obtain ⟨a, b⟩ := p
    by_cases hak : a = k
    · simp [putStore, hak]
    · simp [putStore, hak, ih]

theorem pos_foldl_countStep (ws : List Word) :
    ∀ acc : WordMap, (∀ p ∈ acc, 1 ≤ p.2) →
      ∀ p ∈ ws.foldl countStep acc, 1 ≤ p.2 := by
  induction ws with
  | nil => intro acc h; simpa using h
  | cons w ws ih =>
    intro acc h
    by_cases hc : clean w = []
    · simp only [List.foldl_cons, countStep, hc, if_true]
      exact ih acc h
    · simp only [List.foldl_cons, countStep, hc, if_false]
      exact ih _ (pos_bump acc (clean w) 1 h (le_refl 1))

theorem pos_wordCounts (ws : List Word) : ∀ p ∈ wordCounts ws, 1 ≤ p.2 :=
  pos_foldl_countStep ws [] (by simp)

theorem pos_mergeInto (m : WordMap) :
    ∀ f : WordMap, (∀ p ∈ f, 1 ≤ p.2) → (∀ p ∈ m, 1 ≤ p.2) →
      ∀ p ∈ mergeInto f m, 1 ≤ p.2 := by
  induction m with
  | nil => intro f hf _; simpa [mergeInto] using hf
  | cons q m ih =>
    intro f hf hm
    simp only [mergeInto, List.foldl_cons] at *
    exact ih _ (pos_bump f q.1 q.2 hf (hm q (by simp)))
      (fun p hp => hm p (List.mem_cons_of_mem _ hp))

theorem unmarshal_eq_some (b : Blob) (m : WordMap)
    (h : unmarshalWordMap b = some m) : b = Blob.jsonMap m := by
  cases b with
  | text s => simp [unmarshalWordMap] at h
  | jsonMap m2 =>
    simp only [unmarshalWordMap, Option.some.injEq] at h
    rw [h]

theorem aggregate_nodup (store : Store) (ks : List Word) :
    ∀ (acc final : WordMap), (acc.map Prod.fst).Nodup →
      aggregate store ks acc = Except.ok final → (final.map Prod.fst).Nodup := by
  induction ks with
  | nil =>
    intro acc final h heq
    simp only [aggregate, Except.ok.injEq] at heq
    subst heq
    exact h
  | cons k ks ih =>
    intro acc final h heq
    cases hls : lookupStore store (trimSpace k) with
    | none => simp [aggregate, hls] at heq
    | some obj =>
      cases hum : unmarshalWordMap obj.blob with
      | none => simp [aggregate, hls, hum] at heq
      | some m =>
        simp only [aggregate, hls, hum] at heq
        exact ih _ final (nodup_keys_mergeInto m acc h) heq

theorem aggregate_pos (store : Store)
    (hstore : ∀ (k : Word) (o : StoredObj), lookupStore store k = some o →
      ∀ m : WordMap, o.blob = Blob.jsonMap m → ∀ q ∈ m, 1 ≤ q.2)
    (ks : List Word) :
    ∀ (acc final : WordMap), (∀ p ∈ acc, 1 ≤ p.2) →
      aggregate store ks acc = Except.ok final → ∀ p ∈ final, 1 ≤ p.2 := by
  induction ks with
  | nil =>
    intro acc final h heq
    simp only [aggregate, Except.ok.injEq] at heq
    subst heq
    exact h
  | cons k ks ih =>
    intro acc final h heq
    cases hls : lookupStore store (trimSpace k) with
    | none => simp [aggregate, hls] at heq
    | some obj =>
      cases hum : unmarshalWordMap obj.blob with
      | none => simp [aggregate, hls, hum] at heq
      | some m =>
        simp only [aggregate, hls, hum] at heq
        have hmpos : ∀ q ∈ m, 1 ≤ q.2 :=
          hstore (trimSpace k) obj hls m (unmarshal_eq_some obj.blob m hum)
        exact ih _ final (pos_mergeInto m acc h hmpos) heq

theorem mem_cleanedWords (ws : List Word) (x : Word) :
    x ∈ cleanedWords ws ↔ x ≠ [] ∧ ∃ tok ∈ ws, clean tok = x := by
  induction ws with
  | nil => simp [cleanedWords]
  | cons w ws ih =>
    by_cases hc : clean w = []
    · simp only [cleanedWords, hc, if_true, List.mem_cons]
      rw [ih]
      constructor
      · rintro ⟨hx, tok, htok, hcl⟩
        exact ⟨hx, tok, Or.inr htok, hcl⟩
      · rintro ⟨hx, tok, htok, hcl⟩
        rcases htok with h1 | h1
        · subst h1
          exact absurd (hc.symm.trans hcl).symm hx
        · exact ⟨hx, tok, h1, hcl⟩
    · simp only [cleanedWords, hc, if_false, List.mem_cons]
      rw [ih]
      constructor
      · rintro (h1 | ⟨hx, tok, htok, hcl⟩)
        · subst h1
          exact ⟨hc, w, Or.inl rfl, rfl⟩
        · exact ⟨hx, tok, Or.inr htok, hcl⟩
      · rintro ⟨hx, tok, htok, hcl⟩
        rcases htok with h1 | h1
        · subst h1
          exact Or.inl hcl.symm
        · exact Or.inr ⟨hx, tok, h1, hcl⟩

theorem wordCounts_length (ws : List Word) :
    (wordCounts ws).length = (cleanedWords ws).toFinset.card := by
  have h1 : ((wordCounts ws).map Prod.fst).toFinset = (cleanedWords ws).toFinset := by
    ext x
    simp only [List.mem_toFinset]
    exact mem_keys_wordCounts ws x
  have h2 := List.toFinset_card_of_nodup (nodup_keys_wordCounts ws)
  rw [h1] at h2
  rw [h2, List.length_map]

theorem sum_bump (m : WordMap) (w : Word) (k : Nat) :
    ((bump m w k).map Prod.snd).sum = (m.map Prod.snd).sum + k := by
  induction m with
  | nil => simp [bump]
  | cons p rest ih =>
    obtain ⟨a, c⟩ := p
    by_cases haw : a = w
    · simp [bump, haw]
      omega
    · simp [bump, haw, ih]
      omega

theorem sum_foldl_countStep (ws : List Word) :
    ∀ acc : WordMap, ((ws.foldl countStep acc).map Prod.snd).sum =
      (acc.map Prod.snd).sum + (cleanedWords ws).length := by
  induction ws with
  | nil => intro acc; simp [cleanedWords]
  | cons w ws ih =>
    intro acc
    by_cases hc : clean w = []
    · simp only [List.foldl_cons, countStep, hc, if_true, cleanedWords]
      exact ih acc
    · simp only [List.foldl_cons, countStep, hc, if_false, cleanedWords]
      rw [ih, sum_bump]
      simp only [List.length_cons]
      omega

theorem sum_wordCounts (ws : List Word) :
    ((wordCounts ws).map Prod.snd).sum = (cleanedWords ws).length := by
  have h := sum_foldl_countStep ws []
  simpa [wordCounts] using h

theorem cleanedWords_length_le (ws : List Word) :
    (cleanedWords ws).length ≤ ws.length := by
  induction ws with
  | nil => simp [cleanedWords]
  | cons w ws ih =>
    by_cases hc : clean w = []
    · simp only [cleanedWords, hc, if_true, List.length_cons]
      omega
    · simp only [cleanedWords, hc, if_false, List.length_cons]
      omega

def sampleChunkA : List Char := "a b".toList

def sampleChunkB : List Char := "b c".toList

def sampleWhole : List Char := "a b b c".toList

theorem chunk_count_never_affects_final_counts_witness :
    1 ≤ ([sampleChunkA, sampleChunkB] : List (List Char)).length ∧
    (reduceCounts ([sampleChunkA, sampleChunkB].map (fun t => wordCounts (fields t)))).length
      = (wordCounts (fields sampleWhole)).length :=
  ⟨by decide,
   (chunk_count_never_affects_final_counts [sampleChunkA, sampleChunkB] sampleWhole
     (by decide) (by decide)).2⟩

theorem aggregate_keys (store : Store) (ks : List Word) :
    ∀ (acc final : WordMap),
      aggregate store ks acc = Except.ok final →
      ∀ x : Word, x ∈ final.map Prod.fst ↔
        (x ∈ acc.map Prod.fst ∨
          ∃ k ∈ ks.map trimSpace, ∃ o : StoredObj,
            lookupStore store k = some o ∧ ∃ mm : WordMap,
              unmarshalWordMap o.blob = some mm ∧ x ∈ mm.map Prod.fst) := by
  induction ks with
  | nil =>
    intro acc final heq x
    simp only [aggregate, Except.ok.injEq] at heq
    subst heq
    simp
  | cons k ks ih =>
    intro acc final heq x
    cases hls : lookupStore store (trimSpace k) with
    | none => simp [aggregate, hls] at heq
    | some obj =>
      cases hum : unmarshalWordMap obj.blob with
      | none => simp [aggregate, hls, hum] at heq
      | some m =>
        simp only [aggregate, hls, hum] at heq
        rw [ih _ final heq x, mem_keys_mergeInto]
        simp only [List.map_cons, List.mem_cons]
        constructor
        · rintro ((h | h) | ⟨k2, hk2, o, ho, mm, hmm, hx⟩)
          · exact Or.inl h
          · exact Or.inr ⟨trimSpace k, Or.inl rfl, obj, hls, m, hum, h⟩
          · exact Or.inr ⟨k2, Or.inr hk2, o, ho, mm, hmm, hx⟩
        · rintro (h | ⟨k2, hk2, o, ho, mm, hmm, hx⟩)
          · exact Or.inl (Or.inl h)
          · rcases hk2 with h1 | h1
            · subst h1
              have hoo : obj = o := by
                have := hls.symm.trans ho
                exact Option.some.inj this
              subst hoo
              have hmmeq : m = mm := by
                have := hum.symm.trans hmm
                exact Option.some.inj this
              subst hmmeq
              exact Or.inl (Or.inr hx)
            · exact Or.inr ⟨k2, h1, o, ho, mm, hmm, hx⟩

/-- C2: every artifact the mapper or the reducer writes to the store is a
JSON word-count object written with content type application/json: the
mapper artifact keys are exactly the nonempty cleaned (lower-cased,
cutset-stripped) forms of the whitespace-separated tokens of the chunk —
tokens cleaning to empty are omitted — the final reducer artifact keys are
exactly the keys inherited from the aggregated mapper outputs (hence the
same cleaned input words), and every stored count is a positive integer,
the reducer preserving positivity of the outputs it aggregates. -/
theorem artifacts_are_cleaned_positive_json :
    (∀ (bucket key outputKey : Word) (putFail : Bool) (store : Store) (obj : StoredObj),
      lookupStore store key = some obj →
      ∀ p ∈ (mapHandler bucket key outputKey putFail store).puts,
        p.2.contentType = contentTypeJson ∧
        ∃ m : WordMap, p.2.blob = Blob.jsonMap m ∧
          (∀ q ∈ m, 1 ≤ q.2) ∧
          (∀ x : Word, x ∈ m.map Prod.fst ↔
            (x ≠ [] ∧ ∃ tok ∈ fields (blobBytes obj.blob), clean tok = x)))
    ∧
    (∀ (bucket keysParam : Word) (putFail : Bool) (store : Store),
      (∀ (k : Word) (o : StoredObj), lookupStore store k = some o →
        ∀ m : WordMap, o.blob = Blob.jsonMap m → ∀ q ∈ m, 1 ≤ q.2) →
      ∀ p ∈ (reduceHandler bucket keysParam putFail store).puts,
        p.2.contentType = contentTypeJson ∧
        ∃ m : WordMap, p.2.blob = Blob.jsonMap m ∧ (∀ q ∈ m, 1 ≤ q.2) ∧
          (∀ x : Word, x ∈ m.map Prod.fst ↔
            ∃ k ∈ (splitComma keysParam).map trimSpace, ∃ o : StoredObj,
              lookupStore store k = some o ∧ ∃ mm : WordMap,
                unmarshalWordMap o.blob = some mm ∧
                  x ∈ mm.map Prod.fst)) := by
  constructor
  · intro bucket key outputKey putFail store obj hget p hp
    by_cases hcond : bucket = [] ∨ key = [] ∨ outputKey = []
    · simp [mapHandler, hcond] at hp
    · cases putFail with
      | true => simp [mapHandler, hcond, hget] at hp
      | false =>
        simp only [mapHandler, hcond, if_false, hget, Bool.false_eq_true,
          List.mem_singleton] at hp
        subst hp
        refine ⟨rfl, wordCounts (fields (blobBytes obj.blob)), rfl,
          pos_wordCounts _, ?_⟩
        intro x
        rw [mem_keys_wordCounts, mem_cleanedWords]
  · intro bucket keysParam putFail store hstore p hp
    by_cases hcond : bucket = [] ∨ keysParam = []
    · simp [reduceHandler, hcond] at hp
    · cases hagg : aggregate store (splitComma keysParam) [] with
      | error e =>
        cases e with
        | getFailed k => simp [reduceHandler, hcond, hagg] at hp
        | parseFailed k => simp [reduceHandler, hcond, hagg] at hp
      | ok finalCounts =>
        cases putFail with
        | true => simp [reduceHandler, hcond, hagg] at hp
        | false =>
          simp only [reduceHandler, hcond, if_false, hagg, Bool.false_eq_true,
            List.mem_singleton] at hp
          subst hp
          refine ⟨rfl, finalCounts, rfl,
            aggregate_pos store hstore (splitComma keysParam) [] finalCounts
              (by simp) hagg, ?_⟩
          intro x
          rw [aggregate_keys store (splitComma keysParam) [] finalCounts hagg x]
          simp

def wBucket : Word := "b".toList

def wKey : Word := "k".toList

def wOut : Word := "o".toList

def plainText : Word := "text/plain".toList

def wChunkObj : StoredObj := ⟨Blob.text ("x x".toList), plainText⟩

def wChunkStore : Store := [(wKey, wChunkObj)]

def wX : Word := "x".toList

def wFinal : WordMap := [(wX, 2)]

def wRedKeys : Word := "m1".toList

def wRedStore : Store := [(wRedKeys, ⟨Blob.jsonMap wFinal, contentTypeJson⟩)]

theorem artifacts_are_cleaned_positive_json_witness :
    ∃ p ∈ (mapHandler wBucket wKey wOut false wChunkStore).puts,
      p.2.contentType = contentTypeJson :=
  ⟨(wOut, ⟨Blob.jsonMap (wordCounts (fields (blobBytes wChunkObj.blob))),
      contentTypeJson⟩),
   by decide,
   ((artifacts_are_cleaned_positive_json.1 wBucket wKey wOut false wChunkStore
      wChunkObj (by decide)
      (wOut, ⟨Blob.jsonMap (fields (blobBytes wChunkObj.blob) |> wordCounts),
        contentTypeJson⟩) (by decide)).1)⟩

/-- C3: a /map request with all parameters present whose store operations
succeed answers 200 with exactly the fields message, output, unique_words
and total_words, unique_words being the number of distinct cleaned words of
the chunk and output naming the written object; a /reduce request in the
same situation answers 200 with exactly message, output, unique_words and
mappers_processed, mappers_processed being the number of comma-separated
keys supplied and unique_words the number of distinct words of the
aggregated result. -/
theorem success_response_shapes :
    (∀ (bucket key outputKey : Word) (store : Store) (obj : StoredObj),
      bucket ≠ [] → key ≠ [] → outputKey ≠ [] →
      lookupStore store key = some obj →
      (mapHandler bucket key outputKey false store).resp.status = 200 ∧
      (mapHandler bucket key outputKey false store).resp.body =
        [(messageField, JVal.str mapCompleteMsg),
         (outputField, JVal.str (s3Url bucket outputKey)),
         (uniqueWordsField,
           JVal.num (cleanedWords (fields (blobBytes obj.blob))).toFinset.card),
         (totalWordsField, JVal.num (fields (blobBytes obj.blob)).length)])
    ∧
    (∀ (bucket keysParam : Word) (store : Store) (final : WordMap),
      bucket ≠ [] → keysParam ≠ [] →
      aggregate store (splitComma keysParam) [] = Except.ok final →
      (reduceHandler bucket keysParam false store).resp.status = 200 ∧
      (reduceHandler bucket keysParam false store).resp.body =
        [(messageField, JVal.str reduceCompleteMsg),
         (outputField, JVal.str (s3Url bucket finalResultsKey)),
         (uniqueWordsField, JVal.num (final.map Prod.fst).toFinset.card),
         (mappersProcessedField, JVal.num (splitComma keysParam).length)]) := by
  constructor
  · intro bucket key outputKey store obj hb hk ho hget
    have hcond : ¬ (bucket = [] ∨ key = [] ∨ outputKey = []) := by
      push_neg
      exact ⟨hb, hk, ho⟩
    constructor
    · simp [mapHandler, hcond, hget]
    · simp [mapHandler, hcond, hget, wordCounts_length]
  · intro bucket keysParam store final hb hk hagg
    have hcond : ¬ (bucket = [] ∨ keysParam = []) := by
      push_neg
      exact ⟨hb, hk⟩
    have hnodup : (final.map Prod.fst).Nodup :=
      aggregate_nodup store (splitComma keysParam) [] final (by simp) hagg
    have hcard : (final.map Prod.fst).toFinset.card = final.length := by
      rw [List.toFinset_card_of_nodup hnodup, List.length_map]
    constructor
    · simp [reduceHandler, hcond, hagg]
    · simp [reduceHandler, hcond, hagg, hcard]

theorem success_response_shapes_witness :
    (mapHandler wBucket wKey wOut false wChunkStore).resp.status = 200 ∧
    (reduceHandler wBucket wRedKeys false wRedStore).resp.status = 200 :=
  ⟨(success_response_shapes.1 wBucket wKey wOut wChunkStore wChunkObj
      (by decide) (by decide) (by decide) (by decide)).1,
   (success_response_shapes.2 wBucket wRedKeys wRedStore wFinal
      (by decide) (by decide) rfl).1⟩

/-- C6: every failing /map or /reduce request — a missing query parameter,
a failed store read or write, or an unparseable mapper output — answers
400 or 500 with a JSON body that is a single nonempty error string; no
failure path answers 2xx or omits the error field. -/
theorem failure_responses_carry_error :
    (∀ (bucket key outputKey : Word) (putFail : Bool) (store : Store),
      (bucket = [] ∨ key = [] ∨ outputKey = [] ∨
        lookupStore store key = none ∨ putFail = true) →
      ((mapHandler bucket key outputKey putFail store).resp.status = 400 ∨
        (mapHandler bucket key outputKey putFail store).resp.status = 500) ∧
      ∃ msg : Word,
        (mapHandler bucket key outputKey putFail store).resp.body =
          [(errorField, JVal.str msg)] ∧ msg ≠ [])
    ∧
    (∀ (bucket keysParam : Word) (putFail : Bool) (store : Store),
      (bucket = [] ∨ keysParam = [] ∨
        (∃ e, aggregate store (splitComma keysParam) [] = Except.error e) ∨
        putFail = true) →
      ((reduceHandler bucket keysParam putFail store).resp.status = 400 ∨
        (reduceHandler bucket keysParam putFail store).resp.status = 500) ∧
      ∃ msg : Word,
        (reduceHandler bucket keysParam putFail store).resp.body =
          [(errorField, JVal.str msg)] ∧ msg ≠ []) := by
  constructor
  · intro bucket key outputKey putFail store hfail
    by_cases hcond : bucket = [] ∨ key = [] ∨ outputKey = []
    · exact ⟨Or.inl (by simp [mapHandler, hcond]),
        paramsRequiredMsg, by simp [mapHandler, hcond], by decide⟩
    · cases hls : lookupStore store key with
      | none =>
        exact ⟨Or.inr (by simp [mapHandler, hcond, hls]),
          failedGetObjectMsg, by simp [mapHandler, hcond, hls], by decide⟩
      | some obj =>
        cases putFail with
        | true =>
          exact ⟨Or.inr (by simp [mapHandler, hcond, hls]),
            failedUploadMsg, by simp [mapHandler, hcond, hls], by decide⟩
        | false =>
          exfalso
          push_neg at hcond
          rcases hfail with h | h | h | h | h
          · exact hcond.1 h
          · exact hcond.2.1 h
          · exact hcond.2.2 h
          · rw [hls] at h
            exact Option.noConfusion h
          · exact Bool.noConfusion h
  · intro bucket keysParam putFail store hfail
    by_cases hcond : bucket = [] ∨ keysParam = []
    · exact ⟨Or.inl (by simp [reduceHandler, hcond]),
        keysRequiredMsg, by simp [reduceHandler, hcond], by decide⟩
    · cases hagg : aggregate store (splitComma keysParam) [] with
      | error e =>
        cases e with
        | getFailed k =>
          refine ⟨Or.inr (by simp [reduceHandler, hcond, hagg]),
            failedGetMsg ++ k ++ errCauseMsg,
            by simp [reduceHandler, hcond, hagg], ?_⟩
          simp [List.append_eq_nil]
          intro h
          exact absurd h (by decide)
        | parseFailed k =>
          refine ⟨Or.inr (by simp [reduceHandler, hcond, hagg]),
            failedParseMsg ++ k ++ errCauseMsg,
            by simp [reduceHandler, hcond, hagg], ?_⟩
          simp [List.append_eq_nil]
          intro h
          exact absurd h (by decide)
      | ok finalCounts =>
        cases putFail with
        | true =>
          exact ⟨Or.inr (by simp [reduceHandler, hcond, hagg]),
            failedUploadFinalMsg, by simp [reduceHandler, hcond, hagg], by decide⟩
        | false =>
          exfalso
          push_neg at hcond
          rcases hfail with h | h | ⟨e, h⟩ | h
          · exact hcond.1 h
          · exact hcond.2 h
          · rw [hagg] at h
            exact Except.noConfusion h
          · exact Bool.noConfusion h

theorem failure_responses_carry_error_witness :
    ((mapHandler [] wKey wOut false wChunkStore).resp.status = 400 ∨
      (mapHandler [] wKey wOut false wChunkStore).resp.status = 500) ∧
    ((reduceHandler [] wRedKeys false wRedStore).resp.status = 400 ∨
      (reduceHandler [] wRedKeys false wRedStore).resp.status = 500) :=
  ⟨(failure_responses_carry_error.1 [] wKey wOut false wChunkStore
      (Or.inl rfl)).1,
   (failure_responses_carry_error.2 [] wRedKeys false wRedStore
      (Or.inl rfl)).1⟩

def strictSample : List Char := "hello !!!".toList

/-- C9: in a successful map response, total_words counts every
whitespace-separated token of the chunk, pure-punctuation tokens included,
while such tokens are excluded from the stored mapping, so total_words is
at least the sum of the stored counts — strictly greater for some inputs,
for instance a chunk containing a token of bare punctuation. -/
theorem total_words_counts_all_tokens :
    (∀ (bucket key outputKey : Word) (store : Store) (obj : StoredObj),
      bucket ≠ [] → key ≠ [] → outputKey ≠ [] →
      lookupStore store key = some obj →
      (totalWordsField, JVal.num (fields (blobBytes obj.blob)).length) ∈
          (mapHandler bucket key outputKey false store).resp.body ∧
        [] ∉ (wordCounts (fields (blobBytes obj.blob))).map Prod.fst ∧
        ((wordCounts (fields (blobBytes obj.blob))).map Prod.snd).sum ≤
          (fields (blobBytes obj.blob)).length)
    ∧ ((wordCounts (fields strictSample)).map Prod.snd).sum <
        (fields strictSample).length := by
  constructor
  · intro bucket key outputKey store obj hb hk ho hget
    have hcond : ¬ (bucket = [] ∨ key = [] ∨ outputKey = []) := by
      push_neg
      exact ⟨hb, hk, ho⟩
    refine ⟨by simp [mapHandler, hcond, hget], ?_, ?_⟩
    · rw [mem_keys_wordCounts, mem_cleanedWords]
      simp
    · rw [sum_wordCounts]
      exact cleanedWords_length_le _
  · decide

theorem total_words_counts_all_tokens_witness :
    (totalWordsField, JVal.num (fields (blobBytes wChunkObj.blob)).length) ∈
      (mapHandler wBucket wKey wOut false wChunkStore).resp.body :=
  (total_words_counts_all_tokens.1 wBucket wKey wOut wChunkStore wChunkObj
    (by decide) (by decide) (by decide) (by decide)).1

/-- C10: every successful /reduce writes its aggregate to the one fixed
store key results/final_counts.json whatever the bucket and keys
parameters are, and reports output s3://bucket/results/final_counts.json;
the written object is found at that key afterwards, so successive runs
against one bucket overwrite the same final object. -/
theorem reduce_writes_fixed_final_key
    (bucket keysParam : Word) (store : Store) (final : WordMap)
    (hb : bucket ≠ []) (hk : keysParam ≠ [])
    (hagg : aggregate store (splitComma keysParam) [] = Except.ok final) :
    (reduceHandler bucket keysParam false store).puts.map Prod.fst =
        [finalResultsKey] ∧
    finalResultsKey = "results/final_counts.json".toList ∧
    (outputField, JVal.str (s3Url bucket finalResultsKey)) ∈
      (reduceHandler bucket keysParam false store).resp.body ∧
    lookupStore (reduceHandler bucket keysParam false store).store
        finalResultsKey = some ⟨Blob.jsonMap final, contentTypeJson⟩ := by
  have hcond : ¬ (bucket = [] ∨ keysParam = []) := by
    push_neg
    exact ⟨hb, hk⟩
  refine ⟨?_, rfl, ?_, ?_⟩
  · simp [reduceHandler, hcond, hagg]
  · simp [reduceHandler, hcond, hagg]
  · simp [reduceHandler, hcond, hagg, lookupStore_putStore_self]

theorem reduce_writes_fixed_final_key_witness :
    (reduceHandler wBucket wRedKeys false wRedStore).puts.map Prod.fst =
      [finalResultsKey] :=
  (reduce_writes_fixed_final_key wBucket wRedKeys wRedStore wFinal
    (by decide) (by decide) rfl).1

/-- The trimmed key a failed reducer loop iteration reports. -/
def errKey : ReduceErr → Word
  | ReduceErr.getFailed k => k
  | ReduceErr.parseFailed k => k

theorem aggregate_error_mem (store : Store) (ks : List Word) :
    ∀ (acc : WordMap) (e : ReduceErr),
      aggregate store ks acc = Except.error e → errKey e ∈ ks.map trimSpace := by
  induction ks with
  | nil =>
    intro acc e heq
    simp [aggregate] at heq
  | cons k ks ih =>
    intro acc e heq
    cases hls : lookupStore store (trimSpace k) with
    | none =>
      simp only [aggregate, hls, Except.error.injEq] at heq
      subst heq
      simp [errKey]
    | some obj =>
      cases hum : unmarshalWordMap obj.blob with
      | none =>
        simp only [aggregate, hls, hum, Except.error.injEq] at heq
        subst heq
        simp [errKey]
      | some m =>
        simp only [aggregate, hls, hum] at heq
        exact List.mem_cons_of_mem _ (ih _ e heq)

/-- C8: the reducer is atomic on error: if fetching or parsing any supplied
mapper output key fails, /reduce answers 500 with an error naming the
trimmed key that failed, performs no store write at all, and leaves the
store unchanged — the final result is put only after every supplied key
has aggregated successfully. -/
theorem reducer_atomic_on_error
    (bucket keysParam : Word) (putFail : Bool) (store : Store) (e : ReduceErr)
    (hb : bucket ≠ []) (hk : keysParam ≠ [])
    (hagg : aggregate store (splitComma keysParam) [] = Except.error e) :
    (reduceHandler bucket keysParam putFail store).resp.status = 500 ∧
    (reduceHandler bucket keysParam putFail store).store = store ∧
    (reduceHandler bucket keysParam putFail store).puts = [] ∧
    ∃ k : Word, k ∈ (splitComma keysParam).map trimSpace ∧
      ((e = ReduceErr.getFailed k ∧
        (reduceHandler bucket keysParam putFail store).resp.body =
          [(errorField, JVal.str (failedGetMsg ++ k ++ errCauseMsg))]) ∨
       (e = ReduceErr.parseFailed k ∧
        (reduceHandler bucket keysParam putFail store).resp.body =
          [(errorField, JVal.str (failedParseMsg ++ k ++ errCauseMsg))])) := by
  have hcond : ¬ (bucket = [] ∨ keysParam = []) := by
    push_neg
    exact ⟨hb, hk⟩
  have hmem := aggregate_error_mem store (splitComma keysParam) [] e hagg
  cases e with
  | getFailed k =>
    refine ⟨by simp [reduceHandler, hcond, hagg], by simp [reduceHandler, hcond, hagg],
      by simp [reduceHandler, hcond, hagg], k, hmem, Or.inl ⟨rfl, ?_⟩⟩
    simp [reduceHandler, hcond, hagg]
  | parseFailed k =>
    refine ⟨by simp [reduceHandler, hcond, hagg], by simp [reduceHandler, hcond, hagg],
      by simp [reduceHandler, hcond, hagg], k, hmem, Or.inr ⟨rfl, ?_⟩⟩
    simp [reduceHandler, hcond, hagg]

theorem reducer_atomic_on_error_witness :
    (reduceHandler wBucket wRedKeys false []).resp.status = 500 ∧
    (reduceHandler wBucket wRedKeys false []).store = [] :=
  ⟨(reducer_atomic_on_error wBucket wRedKeys false []
      (ReduceErr.getFailed wRedKeys) (by decide) (by decide) rfl).1,
   (reducer_atomic_on_error wBucket wRedKeys false []
      (ReduceErr.getFailed wRedKeys) (by decide) (by decide) rfl).2.1⟩

def cexStore : Store := [(wKey, ⟨Blob.text ("hello".toList), plainText⟩)]

/-- C7 counterexample: with the output key equal to the chunk key, the
first invocation overwrites the chunk with its JSON result, so the second
invocation counts the words of that JSON text and writes a different
object — invoking twice does not leave the store as invoking once did,
refuting the unrestricted quantification of the claim over the output key. -/
theorem mapper_not_idempotent_output_key_eq_chunk_key :
    (mapHandler wBucket wKey wKey false
        (mapHandler wBucket wKey wKey false cexStore).store).store ≠
      (mapHandler wBucket wKey wKey false cexStore).store := by
  decide

/-- C7 amended: for every fixed bucket, chunk key, chunk content and output
key distinct from the chunk key, invoking /map twice leaves the store in
the same state as invoking it once, performs the same write, and returns
the same payload. -/
theorem mapper_idempotent_distinct_output_key
    (bucket key outputKey : Word) (putFail : Bool) (store : Store)
    (hne : outputKey ≠ key) :
    (mapHandler bucket key outputKey putFail
        ((mapHandler bucket key outputKey putFail store).store)).store =
      (mapHandler bucket key outputKey putFail store).store ∧
    (mapHandler bucket key outputKey putFail
        ((mapHandler bucket key outputKey putFail store).store)).resp =
      (mapHandler bucket key outputKey putFail store).resp ∧
    (mapHandler bucket key outputKey putFail
        ((mapHandler bucket key outputKey putFail store).store)).puts =
      (mapHandler bucket key outputKey putFail store).puts := by
  by_cases hcond : bucket = [] ∨ key = [] ∨ outputKey = []
  · simp [mapHandler, hcond]
  · cases hls : lookupStore store key with
    | none => simp [mapHandler, hcond, hls]
    | some obj =>
      cases putFail with
      | true => simp [mapHandler, hcond, hls]
      | false =>
        have hls2 : lookupStore
            (putStore store outputKey
              ⟨Blob.jsonMap (wordCounts (fields (blobBytes obj.blob))),
                contentTypeJson⟩) key = some obj := by
          rw [lookupStore_putStore_ne store outputKey key _
            (fun h => hne h.symm)]
          exact hls
        simp [mapHandler, hcond, hls, hls2, putStore_putStore_self]

theorem mapper_idempotent_distinct_output_key_witness :
    wOut ≠ wKey ∧
    (mapHandler wBucket wKey wOut false
        ((mapHandler wBucket wKey wOut false wChunkStore).store)).store =
      (mapHandler wBucket wKey wOut false wChunkStore).store :=
  ⟨by decide,
   (mapper_idempotent_distinct_output_key wBucket wKey wOut false wChunkStore
     (by decide)).1⟩

/-- Modelled from the spec: the retry policy of section 4.3 TaskDispatcher
(orchestrator.py is not part of src, only its output log is): a fixed total
attempt budget and a fixed delay between consecutive attempts. -/
structure RetryPolicy where
  max_attempts : Nat
  delay : Nat
deriving DecidableEq

/-- Modelled from the spec: section 3 PhaseResult as the TaskDispatcher
produces it. -/
structure PhaseResult where
  succeeded : Bool
  attempts_used : Nat
  error : Option Word
  response_payload : Option Word
deriving DecidableEq

/-- Modelled from the spec: the observable dispatcher events — a remote
call numbered by its attempt, or a wait of the given duration. -/
inductive TraceEv
  | callEv (attempt : Nat)
  | waitEv (d : Nat)
deriving DecidableEq

/-- Tag carried by the terminal error once the attempt budget is spent: the
ExhaustedRetriesError of the spec, wrapping the error of the last call. -/
def exhaustedTag : Word := "ExhaustedRetriesError: ".toList

/-- Modelled from the spec: section 4.3 attempt loop of the TaskDispatcher.
call gives the outcome of each numbered attempt; remaining is the budget left.
On failure with budget left the dispatcher waits delay and retries; with
the budget spent it terminates in ExhaustedRetriesError. -/
def dispatchAux (call : Nat → Except Word Word) (delay : Nat) :
    Nat → Nat → PhaseResult × List TraceEv
  | attempt, 0 => (⟨false, attempt - 1, some exhaustedTag, none⟩, [])
  | attempt, remaining + 1 =>
    match call attempt with
    | Except.ok payload =>
      (⟨true, attempt, none, some payload⟩, [TraceEv.callEv attempt])
    | Except.error e =>
      if remaining = 0 then
        (⟨false, attempt, some (exhaustedTag ++ e), none⟩,
          [TraceEv.callEv attempt])
      else
        ((dispatchAux call delay (attempt + 1) remaining).1,
          TraceEv.callEv attempt :: TraceEv.waitEv delay ::
            (dispatchAux call delay (attempt + 1) remaining).2)

/-- Modelled from the spec: section 4.3 TaskDispatcher — execute the remote
call with attempts numbered from 1 up to max_attempts. -/
def dispatch (policy : RetryPolicy) (call : Nat → Except Word Word) :
    PhaseResult × List TraceEv :=
  dispatchAux call policy.delay 1 policy.max_attempts

/-- Number of remote calls recorded in a dispatcher trace. -/
def numCalls : List TraceEv → Nat
  | [] => 0
  | TraceEv.callEv _ :: rest => numCalls rest + 1
  | TraceEv.waitEv _ :: rest => numCalls rest

/-- The trace of a run whose every attempt fails: the numbered calls with a
wait of d between each consecutive pair. -/
def failTrace (d : Nat) : Nat → Nat → List TraceEv
  | _, 0 => []
  | attempt, 1 => [TraceEv.callEv attempt]
  | attempt, remaining + 2 =>
    TraceEv.callEv attempt :: TraceEv.waitEv d ::
      failTrace d (attempt + 1) (remaining + 1)

theorem numCalls_failTrace (d : Nat) :
    ∀ (remaining attempt : Nat), numCalls (failTrace d attempt remaining) = remaining := by
  intro remaining
  induction remaining with
  | zero => intro attempt; simp [failTrace, numCalls]
  | succ r ih =>
    intro attempt
    cases r with
    | zero => simp [failTrace, numCalls]
    | succ r2 =>
      simp only [failTrace, numCalls]
      rw [ih (attempt + 1)]

theorem dispatchAux_step (call : Nat → Except Word Word) (d attempt remaining : Nat)
    (e : Word) (he : call attempt = Except.error e) (hr : remaining ≠ 0) :
    dispatchAux call d attempt (remaining + 1) =
      ((dispatchAux call d (attempt + 1) remaining).1,
        TraceEv.callEv attempt :: TraceEv.waitEv d ::
          (dispatchAux call d (attempt + 1) remaining).2) := by
  simp only [dispatchAux, he]
  rw [if_neg hr]

theorem dispatchAux_all_fail (call : Nat → Except Word Word) (d : Nat)
    (hfail : ∀ n, ∃ e, call n = Except.error e) :
    ∀ (remaining attempt : Nat), 1 ≤ remaining →
      ∃ e, call (attempt + remaining - 1) = Except.error e ∧
        dispatchAux call d attempt remaining =
          (⟨false, attempt + remaining - 1, some (exhaustedTag ++ e), none⟩,
            failTrace d attempt remaining) := by
  intro remaining
  induction remaining with
  | zero => intro attempt h; omega
  | succ r ih =>
    intro attempt _
    cases r with
    | zero =>
      obtain ⟨e, he⟩ := hfail attempt
      refine ⟨e, ?_, ?_⟩
      · simpa using he
      · simp [dispatchAux, he, failTrace]
    | succ r2 =>
      obtain ⟨e, he⟩ := hfail attempt
      obtain ⟨e2, he2, heq⟩ := ih (attempt + 1) (by omega)
      have harith : attempt + 1 + (r2 + 1) - 1 = attempt + (r2 + 1 + 1) - 1 := by
        omega
      rw [harith] at he2 heq
      refine ⟨e2, he2, ?_⟩
      rw [dispatchAux_step call d attempt (r2 + 1) e he (by omega), heq]
      simp [failTrace]

/-- C4 (spec-modelled): a Task whose remote call fails on every attempt
makes exactly max_attempts calls, its trace is those calls separated by
waits of exactly delay, it terminates in ExhaustedRetriesError rather than
retrying indefinitely, its attempt counter equals and hence never exceeds
max_attempts, and the failed PhaseResult carries a nonempty error. -/
theorem retry_bound_exhausted
    (policy : RetryPolicy) (call : Nat → Except Word Word)
    (hmax : 1 ≤ policy.max_attempts)
    (hfail : ∀ n, ∃ e, call n = Except.error e) :
    (dispatch policy call).1.succeeded = false ∧
    numCalls (dispatch policy call).2 = policy.max_attempts ∧
    (dispatch policy call).2 = failTrace policy.delay 1 policy.max_attempts ∧
    (dispatch policy call).1.attempts_used = policy.max_attempts ∧
    (dispatch policy call).1.attempts_used ≤ policy.max_attempts ∧
    ∃ e : Word, (dispatch policy call).1.error = some (exhaustedTag ++ e) ∧
      exhaustedTag ++ e ≠ [] := by
  obtain ⟨e, _, heq⟩ :=
    dispatchAux_all_fail call policy.delay hfail policy.max_attempts 1 hmax
  have harith : 1 + policy.max_attempts - 1 = policy.max_attempts := by omega
  rw [harith] at heq
  rw [dispatch, heq]
  refine ⟨rfl, numCalls_failTrace policy.delay policy.max_attempts 1, rfl, rfl,
    le_refl _, e, rfl, append_ne_nil_left _ _ (by decide)⟩

def boomMsg : Word := "boom".toList

theorem retry_bound_exhausted_witness :
    (dispatch ⟨3, 2⟩ (fun _ => Except.error boomMsg)).1.succeeded = false ∧
    numCalls (dispatch ⟨3, 2⟩ (fun _ => Except.error boomMsg)).2 = 3 :=
  ⟨(retry_bound_exhausted ⟨3, 2⟩ (fun _ => Except.error boomMsg) (by decide)
      (fun _ => ⟨boomMsg, rfl⟩)).1,
   (retry_bound_exhausted ⟨3, 2⟩ (fun _ => Except.error boomMsg) (by decide)
      (fun _ => ⟨boomMsg, rfl⟩)).2.1⟩

/-- Modelled from the spec: section 4.6 phases of the pipeline state
machine. -/
inductive Phase
  | Splitting
  | Mapping
  | Reducing
deriving DecidableEq

/-- Modelled from the spec: terminal pipeline outcome — Complete, or the
absorbing Failed state recording the phase that caused it. -/
inductive PipelineOutcome
  | Complete
  | Failed (phase : Phase)
deriving DecidableEq

/-- Modelled from the spec: section 4.4 MapPhase coordinator — one
dispatcher run per chunk, all outcomes collected before the phase is
judged (join barrier). -/
def mapPhase (policy : RetryPolicy)
    (chunkCalls : List (Nat → Except Word Word)) : List PhaseResult :=
  chunkCalls.map (fun c => (dispatch policy c).1)

/-- Modelled from the spec: sections 4.4-4.6 — Split, Map and Reduce run
strictly in order; the Map phase succeeds only if the Task of every chunk
succeeded, and any phase failure forces Failed and skips the remaining
phases. The second component counts the calls made to the reducer
endpoint. -/
def runPipeline (policy : RetryPolicy) (splitCall : Nat → Except Word Word)
    (chunkCalls : List (Nat → Except Word Word))
    (reduceCall : Nat → Except Word Word) : PipelineOutcome × Nat :=
  if (dispatch policy splitCall).1.succeeded = false then
    (PipelineOutcome.Failed Phase.Splitting, 0)
  else if (mapPhase policy chunkCalls).all (fun r => r.succeeded) then
    (if (dispatch policy reduceCall).1.succeeded then PipelineOutcome.Complete
     else PipelineOutcome.Failed Phase.Reducing,
     numCalls (dispatch policy reduceCall).2)
  else (PipelineOutcome.Failed Phase.Mapping, 0)

/-- C5 (spec-modelled): in every pipeline run in which the map call of some chunk whose
Task exhausts its retry budget, the Map phase is reported as failed and
reduce is never invoked — the reducer endpoint receives zero calls — so no
partial reduce over only the succeeded chunks is performed. -/
theorem map_exhaustion_prevents_reduce
    (policy : RetryPolicy) (splitCall : Nat → Except Word Word)
    (chunkCalls : List (Nat → Except Word Word))
    (reduceCall : Nat → Except Word Word)
    (hmax : 1 ≤ policy.max_attempts)
    (hsplit : (dispatch policy splitCall).1.succeeded = true)
    (hbad : ∃ c ∈ chunkCalls, ∀ n, ∃ e, c n = Except.error e) :
    runPipeline policy splitCall chunkCalls reduceCall =
      (PipelineOutcome.Failed Phase.Mapping, 0) := by
  obtain ⟨c, hc, hfail⟩ := hbad
  have hcf : (dispatch policy c).1.succeeded = false := by
    obtain ⟨e, _, heq⟩ :=
      dispatchAux_all_fail c policy.delay hfail policy.max_attempts 1 hmax
    rw [dispatch, heq]
  have hall : (mapPhase policy chunkCalls).all (fun r => r.succeeded) = false := by
    apply List.all_eq_false.2
    exact ⟨(dispatch policy c).1, List.mem_map.2 ⟨c, hc, rfl⟩, by simp [hcf]⟩
  simp [runPipeline, hsplit, hall]

def downMsg : Word := "down".toList

def doneMsg : Word := "done".toList

def alwaysFails (_ : Nat) : Except Word Word := Except.error downMsg

def alwaysOk (_ : Nat) : Except Word Word := Except.ok doneMsg

theorem map_exhaustion_prevents_reduce_witness :
    runPipeline ⟨3, 2⟩ alwaysOk [alwaysFails] alwaysOk =
      (PipelineOutcome.Failed Phase.Mapping, 0) :=
  map_exhaustion_prevents_reduce ⟨3, 2⟩ alwaysOk [alwaysFails] alwaysOk
    (by decide) rfl ⟨alwaysFails, by simp, fun _ => ⟨downMsg, rfl⟩⟩

end GoHW
